import Mathlib

/-!
Verification development for the `seedo` repository (a change-triggered
command runner).  The definitions below are shallow embeddings of the two
source files:

* `src/glob_watcher.rs` — `Pattern::new` compiles a glob string into a pair
  of byte regexes (`file_regex`, `directory_regex`) plus a `base_directory`;
  matching uses `regex::bytes::Regex::is_match`, which is *unanchored*
  substring search.  We embed the constructed regexes as an abstract syntax
  tree (`Regex`) and implement `is_match` with Brzozowski derivatives.
  Paths and path components are modelled as `List Char` (byte-exact ASCII
  matching of the Rust code; the embedding treats `?` and `\` in a
  component as literal characters, which differs from the regex crate's
  parse, so every general theorem below restricts components to exclude
  those two characters).
* `src/main.rs` — the debounce/dispatch engine (`DebounceTimer`, the
  event filter `should_event_trigger`, the dispatch loop of `try_main`)
  and the construction phase of `try_main`/`main`.  Instants are modelled
  as `Nat` (milliseconds), the external `glob::Pattern` matcher as an
  abstract `String → Bool`, and filesystem/OS interaction as explicit
  environment records.
-/

namespace Seedo

/-! ## Regex AST and Brzozowski-derivative matcher

The constructors cover exactly the syntax `Pattern::new` emits:
literal characters, `.` (any byte except newline), `[^/]`, concatenation,
alternation (used for the optional groups `(:?…)?`) and Kleene star. -/

inductive Regex where
  | void
  | eps
  | char (c : Char)
  | anyNotNl
  | notSlash
  | cat (r s : Regex)
  | alt (r s : Regex)
  | star (r : Regex)
  deriving Repr, DecidableEq

namespace Regex

/-- Does the regex accept the empty string? -/
def nullable : Regex → Bool
  | void => false
  | eps => true
  | char _ => false
  | anyNotNl => false
  | notSlash => false
  | cat r s => r.nullable && s.nullable
  | alt r s => r.nullable || s.nullable
  | star _ => true

/-- Brzozowski derivative with respect to one character. -/
def deriv : Regex → Char → Regex
  | void, _ => void
  | eps, _ => void
  | char a, c => if c = a then eps else void
  | anyNotNl, c => if c = '\n' then void else eps
  | notSlash, c => if c = '/' then void else eps
  | cat r s, c => if r.nullable then alt (cat (r.deriv c) s) (s.deriv c) else cat (r.deriv c) s
  | alt r s, c => alt (r.deriv c) (s.deriv c)
  | star r, c => cat (r.deriv c) (star r)

/-- Language of a regex, as an inductive acceptance predicate. -/
inductive Accepts : Regex → List Char → Prop
  | eps : Accepts .eps []
  | char (c : Char) : Accepts (.char c) [c]
  | anyNotNl (c : Char) : c ≠ '\n' → Accepts .anyNotNl [c]
  | notSlash (c : Char) : c ≠ '/' → Accepts .notSlash [c]
  | cat {r s : Regex} {u v : List Char} :
      Accepts r u → Accepts s v → Accepts (.cat r s) (u ++ v)
  | altL {r s : Regex} {u : List Char} : Accepts r u → Accepts (.alt r s) u
  | altR {r s : Regex} {u : List Char} : Accepts s u → Accepts (.alt r s) u
  | starNil (r : Regex) : Accepts (.star r) []
  | starCons {r : Regex} {u v : List Char} :
      Accepts r u → Accepts (.star r) v → Accepts (.star r) (u ++ v)

theorem accepts_nil_of_nullable : ∀ {r : Regex}, r.nullable = true → r.Accepts [] := by
  intro r h
  induction r with
  | void => simp [nullable] at h
  | eps => exact .eps
  | char c => simp [nullable] at h
  | anyNotNl => simp [nullable] at h
  | notSlash => simp [nullable] at h
  | cat r s ihr ihs =>
      simp [nullable] at h
      have := Accepts.cat (ihr h.1) (ihs h.2)
      simpa using this
  | alt r s ihr ihs =>
      simp [nullable] at h
      rcases h with h | h
      · exact .altL (ihr h)
      · exact .altR (ihs h)
  | star r _ => exact .starNil r

theorem nullable_of_accepts_nil {r : Regex} {w : List Char}
    (h : r.Accepts w) (hw : w = []) : r.nullable = true := by
  induction h with
  | eps => rfl
  | char c => simp at hw
  | anyNotNl c h => simp at hw
  | notSlash c h => simp at hw
  | cat hu hv ihu ihv =>
      rcases List.append_eq_nil.mp hw with ⟨h1, h2⟩
      simp [Regex.nullable, ihu h1, ihv h2]
  | altL h ih => simp [Regex.nullable, ih hw]
  | altR h ih => simp [Regex.nullable, ih hw]
  | starNil r => rfl
  | starCons hu hv ihu ihv => rfl

theorem nullable_iff {r : Regex} : r.nullable = true ↔ r.Accepts [] :=
  ⟨accepts_nil_of_nullable, fun h => nullable_of_accepts_nil h rfl⟩

theorem accepts_deriv_of_accepts {r : Regex} {w : List Char} (h : r.Accepts w) :
    ∀ c s, w = c :: s → (r.deriv c).Accepts s := by
  induction h with
  | eps => intro c s hw; simp at hw
  | char a =>
      intro c s hw
      obtain ⟨h1, h2⟩ : a = c ∧ [] = s := by simpa using hw
      subst h1; subst h2
      simp [Regex.deriv]
      exact .eps
  | anyNotNl a ha =>
      intro c s hw
      obtain ⟨h1, h2⟩ : a = c ∧ [] = s := by simpa using hw
      subst h1; subst h2
      simp [Regex.deriv, ha]
      exact .eps
  | notSlash a ha =>
      intro c s hw
      obtain ⟨h1, h2⟩ : a = c ∧ [] = s := by simpa using hw
      subst h1; subst h2
      simp [Regex.deriv, ha]
      exact .eps
  | @cat r s u v hu hv ihu ihv =>
      intro c s0 hw
      cases u with
      | nil =>
          simp at hw
          have hnull : r.nullable = true := nullable_of_accepts_nil hu rfl
          have hd : (s.deriv c).Accepts s0 := ihv c s0 hw
          simp [Regex.deriv, hnull]
          exact .altR hd
      | cons x u' =>
          simp at hw
          obtain ⟨hx, hrest⟩ := hw
          subst hx
          have hd : (r.deriv x).Accepts u' := ihu x u' rfl
          by_cases hnull : r.nullable = true
          · simp [Regex.deriv, hnull]
            refine .altL ?_
            have := Accepts.cat hd hv
            simpa [hrest] using this
          · simp [Regex.deriv, hnull]
            have := Accepts.cat hd hv
            simpa [hrest] using this
  | altL h ih =>
      intro c s0 hw
      have := ih c s0 hw
      exact .altL this
  | altR h ih =>
      intro c s0 hw
      have := ih c s0 hw
      exact .altR this
  | starNil r => intro c s hw; simp at hw
  | @starCons r u v hu hv ihu ihv =>
      intro c s0 hw
      cases u with
      | nil =>
          simp at hw
          exact ihv c s0 hw
      | cons x u' =>
          simp at hw
          obtain ⟨hx, hrest⟩ := hw
          subst hx
          have hd : (r.deriv x).Accepts u' := ihu x u' rfl
          simp [Regex.deriv]
          have := Accepts.cat hd hv
          simpa [hrest] using this

theorem accepts_of_accepts_deriv :
    ∀ (r : Regex) (c : Char) (s : List Char), (r.deriv c).Accepts s → r.Accepts (c :: s) := by
  intro r
  induction r with
  | void => intro c s h; simp [Regex.deriv] at h; cases h
  | eps => intro c s h; simp [Regex.deriv] at h; cases h
  | char a =>
      intro c s h
      by_cases hc : c = a
      · subst hc
        simp [Regex.deriv] at h
        cases h
        exact .char c
      · simp [Regex.deriv, hc] at h; cases h
  | anyNotNl =>
      intro c s h
      by_cases hc : c = '\n'
      · simp [Regex.deriv, hc] at h; cases h
      · simp [Regex.deriv, hc] at h
        cases h
        exact .anyNotNl c hc
  | notSlash =>
      intro c s h
      by_cases hc : c = '/'
      · simp [Regex.deriv, hc] at h; cases h
      · simp [Regex.deriv, hc] at h
        cases h
        exact .notSlash c hc
  | cat r1 r2 ih1 ih2 =>
      intro c s h
      by_cases hnull : r1.nullable = true
      · simp [Regex.deriv, hnull] at h
        cases h with
        | altL h =>
            cases h with
            | @cat _ _ u v hu hv =>
                have := Accepts.cat (ih1 c u hu) hv
                simpa using this
        | altR h =>
            have h2 : r2.Accepts (c :: s) := ih2 c s h
            have h1 : r1.Accepts [] := accepts_nil_of_nullable hnull
            have := Accepts.cat h1 h2
            simpa using this
      · simp [Regex.deriv, hnull] at h
        cases h with
        | @cat _ _ u v hu hv =>
            have := Accepts.cat (ih1 c u hu) hv
            simpa using this
  | alt r1 r2 ih1 ih2 =>
      intro c s h
      simp [Regex.deriv] at h
      cases h with
      | altL h => exact .altL (ih1 c s h)
      | altR h => exact .altR (ih2 c s h)
  | star r ih =>
      intro c s h
      simp [Regex.deriv] at h
      cases h with
      | @cat _ _ u v hu hv =>
          have := Accepts.starCons (ih c u hu) hv
          simpa using this

theorem deriv_accepts_iff {r : Regex} {c : Char} {s : List Char} :
    (r.deriv c).Accepts s ↔ r.Accepts (c :: s) :=
  ⟨accepts_of_accepts_deriv r c s, fun h => accepts_deriv_of_accepts h c s rfl⟩

/-- Does the regex accept some prefix of `s`? -/
def isMatchFrom (r : Regex) : List Char → Bool
  | [] => r.nullable
  | c :: rest => r.nullable || (r.deriv c).isMatchFrom rest

/-- Model of `Regex::is_match` of the `regex` crate: unanchored substring search. -/
def is_match (r : Regex) : List Char → Bool
  | [] => r.isMatchFrom []
  | c :: rest => r.isMatchFrom (c :: rest) || r.is_match rest

theorem isMatchFrom_iff {s : List Char} : ∀ {r : Regex},
    r.isMatchFrom s = true ↔ ∃ u v, s = u ++ v ∧ r.Accepts u := by
  induction s with
  | nil =>
      intro r
      simp only [isMatchFrom]
      constructor
      · intro h
        exact ⟨[], [], rfl, accepts_nil_of_nullable h⟩
      · rintro ⟨u, v, huv, hu⟩
        rcases List.append_eq_nil.mp huv.symm with ⟨h1, h2⟩
        subst h1
        exact nullable_of_accepts_nil hu rfl
  | cons c rest ih =>
      intro r
      simp only [isMatchFrom, Bool.or_eq_true]
      constructor
      · rintro (h | h)
        · exact ⟨[], c :: rest, rfl, accepts_nil_of_nullable h⟩
        · rcases ih.mp h with ⟨u, v, huv, hu⟩
          exact ⟨c :: u, v, by simp [huv], deriv_accepts_iff.mp hu⟩
      · rintro ⟨u, v, huv, hu⟩
        cases u with
        | nil =>
            left
            exact nullable_of_accepts_nil hu rfl
        | cons x u' =>
            right
            simp at huv
            obtain ⟨hx, hrest⟩ := huv
            subst hx
            exact ih.mpr ⟨u', v, hrest, deriv_accepts_iff.mpr hu⟩

theorem is_match_iff {s : List Char} : ∀ {r : Regex},
    r.is_match s = true ↔ ∃ p u v, s = p ++ u ++ v ∧ r.Accepts u := by
  induction s with
  | nil =>
      intro r
      simp only [is_match]
      rw [isMatchFrom_iff]
      constructor
      · rintro ⟨u, v, huv, hu⟩
        exact ⟨[], u, v, by simp [huv], hu⟩
      · rintro ⟨p, u, v, huv, hu⟩
        rcases List.append_eq_nil.mp huv.symm with ⟨h1, h2⟩
        rcases List.append_eq_nil.mp h1 with ⟨hp, hu'⟩
        exact ⟨u, v, by simp [hu', h2], hu⟩
  | cons c rest ih =>
      intro r
      simp only [is_match, Bool.or_eq_true]
      constructor
      · rintro (h | h)
        · rcases isMatchFrom_iff.mp h with ⟨u, v, huv, hu⟩
          exact ⟨[], u, v, by simp [huv], hu⟩
        · rcases ih.mp h with ⟨p, u, v, huv, hu⟩
          exact ⟨c :: p, u, v, by simp [huv], hu⟩
      · rintro ⟨p, u, v, huv, hu⟩
        cases p with
        | nil =>
            left
            exact isMatchFrom_iff.mpr ⟨u, v, by simpa using huv, hu⟩
        | cons x p' =>
            right
            simp at huv
            obtain ⟨hx, hrest⟩ := huv
            exact ih.mpr ⟨p', u, v, by simp [hrest], hu⟩

end Regex

/-! ## Glob compiler (`Pattern::new` in `src/glob_watcher.rs`)

A pattern is modelled as the list of `Component::Normal` components of the
absolutized glob (the leading `Component::RootDir` is implicit: the code
pushes the single `/` for it, which appears as the `.char '/'` head of both
compiled regexes).  Components and paths are `List Char`. -/

/-- Characters rejected inside a component by `Pattern::new`
(`'[' | ']' | '(' | ')' | '+' | '$' | '^' | '{' | '}' | '|'`). -/
def badChar (c : Char) : Bool :=
  c = '[' || c = ']' || c = '(' || c = ')' || c = '+' ||
  c = '$' || c = '^' || c = '{' || c = '}' || c = '|'

/-- Model of `comp.contains("**")`: two adjacent stars occur somewhere in the component. -/
def hasDoubleStar : List Char → Bool
  | [] => false
  | [_] => false
  | c :: c2 :: rest => (c = '*' && c2 = '*') || hasDoubleStar (c2 :: rest)

/-- Regex for one literal/`*` component: each `*` was replaced by the text
`[^/]*` and all other characters stand for themselves in the regex string.
This models the regex crate's parse of that text; it treats `?` and `\`
as literal characters, so theorems quantifying over components exclude
those two characters from the domain. -/
def compRegex : List Char → Regex
  | [] => .eps
  | c :: rest =>
      .cat (if c = '*' then .star .notSlash else if c = '.' then .anyNotNl else .char c)
        (compRegex rest)

/-- The text `[^/]+(/[^/])*` pushed to the file regex for a `**` component. -/
def ddRegex : Regex :=
  .cat (.cat .notSlash (.star .notSlash)) (.star (.cat (.char '/') .notSlash))

/-- The text `.*` pushed to the directory regex when `**` is first seen. -/
def dotStarRegex : Regex := .star .anyNotNl

/-- One optional group of the directory regex.  The code pushes `"(:?"` and
later closes it with `")?"`; the parsed form is a group containing an
optional literal `:` followed by the body, all wrapped in `?`. -/
def grpOpt (x : Regex) : Regex := .alt (.cat (.alt (.char ':') .eps) x) .eps

/-- The component loop of `Pattern::new`: walks the normal components,
building the file regex and the directory regex (the latter until
`directory_finished` is set by the first `**`), and rejecting a component
that contains `**` with other text or a disallowed metacharacter.
The nesting of `grpOpt` reproduces the `directory_closing_parens`
bookkeeping: every group opened is closed at the very end, so the groups
nest to the right. -/
def buildTails (dirFinished : Bool) : List (List Char) → Except String (Regex × Regex)
  | [] => .ok (.eps, .eps)
  | comp :: rest =>
      if comp = ['*', '*'] then
        match buildTails true rest with
        | .error e => .error e
        | .ok (f, d) =>
            .ok (.cat ddRegex f, if dirFinished then d else .cat dotStarRegex d)
      else if hasDoubleStar comp then .error "invalid pattern"
      else if comp.any badChar then .error "invalid pattern"
      else
        match buildTails dirFinished rest with
        | .error e => .error e
        | .ok (f, d) =>
            let cr := compRegex comp
            .ok (.cat cr (if rest.isEmpty then f else .cat (.char '/') f),
                 if dirFinished then d
                 else grpOpt (.cat cr (if rest.isEmpty then d else grpOpt (.cat (.char '/') d))))

/-- The compiled pattern: two regexes plus the base directory
(component list, the implicit root omitted). -/
structure Pattern where
  file_regex : Regex
  directory_regex : Regex
  base_directory : List (List Char)
  deriving Repr

/-- Model of `Pattern::new` on the components of the absolutized glob: the
`RootDir` component contributes the leading `/` of both regexes, and
`base_directory` is the `take_while` of components not containing `*`. -/
def Pattern.new (comps : List (List Char)) : Except String Pattern :=
  match buildTails false comps with
  | .error e => .error e
  | .ok (f, d) =>
      .ok { file_regex := .cat (.char '/') f,
            directory_regex := .cat (.char '/') d,
            base_directory := comps.takeWhile (fun c => !c.contains '*') }

/-- Render an absolute path from its normal components
(`/` ++ components joined by `/`). -/
def renderTail : List (List Char) → List Char
  | [] => []
  | [c] => c
  | c :: rest => c ++ '/' :: renderTail rest

def renderPath (comps : List (List Char)) : List Char := '/' :: renderTail comps

/-- The `file_matcher` of a compiled glob, `false` when compilation fails. -/
def patFileMatch (comps : List (List Char)) (p : List Char) : Bool :=
  match Pattern.new comps with
  | .ok pat => pat.file_regex.is_match p
  | .error _ => false

/-- The `directory_prefix_matcher` of a compiled glob, `false` when compilation fails. -/
def patDirMatch (comps : List (List Char)) (p : List Char) : Bool :=
  match Pattern.new comps with
  | .ok pat => pat.directory_regex.is_match p
  | .error _ => false

/-- The `base_directory` of a compiled glob. -/
def patBase (comps : List (List Char)) : Option (List (List Char)) :=
  match Pattern.new comps with
  | .ok pat => some pat.base_directory
  | .error _ => none

/-! ### Structural lemmas about the compiled regexes -/

/-- The directory regex tail is always nullable: every group the loop opens
is closed with `)?`, and the `.*` pushed for `**` is nullable, so once the
leading `/` is consumed the directory regex can stop anywhere. -/
theorem buildTails_dir_nullable :
    ∀ (comps : List (List Char)) (flag : Bool) (f d : Regex),
      buildTails flag comps = .ok (f, d) → d.nullable = true := by
  intro comps
  induction comps with
  | nil =>
      intro flag f d h
      simp only [buildTails, Except.ok.injEq, Prod.mk.injEq] at h
      rw [← h.2]
      rfl
  | cons comp rest ih =>
      intro flag f d h
      simp only [buildTails] at h
      split at h
      · cases hrec : buildTails true rest with
        | error e => rw [hrec] at h; simp at h
        | ok fd =>
            obtain ⟨f', d'⟩ := fd
            rw [hrec] at h
            simp only [Except.ok.injEq, Prod.mk.injEq] at h
            have hnull := ih true f' d' hrec
            rw [← h.2]
            cases flag with
            | true => simpa using hnull
            | false => simp [Regex.nullable, dotStarRegex, hnull]
      · split at h
        · simp at h
        · split at h
          · simp at h
          · cases hrec : buildTails flag rest with
            | error e => rw [hrec] at h; simp at h
            | ok fd =>
                obtain ⟨f', d'⟩ := fd
                rw [hrec] at h
                simp only [Except.ok.injEq, Prod.mk.injEq] at h
                have hnull := ih flag f' d' hrec
                rw [← h.2]
                cases flag with
                | true => simpa using hnull
                | false => simp [Regex.nullable, grpOpt]

/-- A path accepted by `cat (char '/') f` (by unanchored search) contains a
slash. -/
theorem slash_mem_of_match {f : Regex} {p : List Char}
    (h : (Regex.cat (.char '/') f).is_match p = true) : '/' ∈ p := by
  rcases Regex.is_match_iff.mp h with ⟨pre, u, v, hp, hu⟩
  cases hu with
  | cat hu1 hu2 =>
      cases hu1
      subst hp
      simp

/-- Conversely, if `d` is nullable then `cat (char '/') d` matches (by
unanchored search) any path containing a slash. -/
theorem match_of_slash_mem {d : Regex} (hd : d.nullable = true) {p : List Char}
    (h : '/' ∈ p) : (Regex.cat (.char '/') d).is_match p = true := by
  rcases List.append_of_mem h with ⟨s, t, rfl⟩
  apply Regex.is_match_iff.mpr
  refine ⟨s, ['/'], t, by simp, ?_⟩
  have hacc : Regex.Accepts (.cat (.char '/') d) (['/'] ++ []) :=
    Regex.Accepts.cat (Regex.Accepts.char '/') (Regex.accepts_nil_of_nullable hd)
  simpa using hacc

/-- A component without stars has no `**` occurrence. -/
theorem hasDoubleStar_eq_false : ∀ {w : List Char},
    (∀ c ∈ w, c ≠ '*') → hasDoubleStar w = false
  | [], _ => rfl
  | [_], _ => rfl
  | c :: c2 :: rest, h => by
      have h1 : c ≠ '*' := h c (by simp)
      have h2 : ∀ x ∈ c2 :: rest, x ≠ '*' := fun x hx => h x (List.mem_cons_of_mem c hx)
      simp [hasDoubleStar, h1, hasDoubleStar_eq_false h2]

/-- The component regex of a star-free component accepts the component
itself (each character stands for itself; `.` also matches `.`). -/
theorem compRegex_accepts_self : ∀ (w : List Char),
    (∀ c ∈ w, c ≠ '*') → (compRegex w).Accepts w := by
  intro w
  induction w with
  | nil => intro _; exact .eps
  | cons c rest ih =>
      intro hw
      have hc : c ≠ '*' := hw c (by simp)
      have hrest : ∀ x ∈ rest, x ≠ '*' := fun x hx => hw x (List.mem_cons_of_mem c hx)
      have hatom :
          Regex.Accepts
            (if c = '*' then Regex.star .notSlash else if c = '.' then .anyNotNl else .char c)
            [c] := by
        rw [if_neg hc]
        by_cases hdot : c = '.'
        · subst hdot
          rw [if_pos rfl]
          exact .anyNotNl '.' (by decide)
        · rw [if_neg hdot]
          exact .char c
      have := Regex.Accepts.cat hatom (ih hrest)
      simpa [compRegex] using this

/-- On star-free, metacharacter-free components the component loop succeeds
and the file regex tail accepts the rendered component sequence. -/
theorem buildTails_literal : ∀ (comps : List (List Char)),
    (∀ w ∈ comps, ∀ c ∈ w, c ≠ '*' ∧ badChar c = false) →
    ∀ flag, ∃ f d, buildTails flag comps = .ok (f, d) ∧ f.Accepts (renderTail comps) := by
  intro comps
  induction comps with
  | nil => intro _ flag; exact ⟨.eps, .eps, rfl, .eps⟩
  | cons comp rest ih =>
      intro h flag
      have hcomp := h comp (by simp)
      have hrest : ∀ w ∈ rest, ∀ c ∈ w, c ≠ '*' ∧ badChar c = false :=
        fun w hw => h w (List.mem_cons_of_mem comp hw)
      have hstar : ∀ c ∈ comp, c ≠ '*' := fun c hc => (hcomp c hc).1
      have hne : comp ≠ ['*', '*'] := by
        intro he
        have := hstar '*' (by rw [he]; simp)
        simp at this
      have hds : hasDoubleStar comp = false := hasDoubleStar_eq_false hstar
      have hbc : comp.any badChar = false := by
        rw [List.any_eq_false]
        intro c hc
        simp [(hcomp c hc).2]
      have hcr := compRegex_accepts_self comp hstar
      cases rest with
      | nil =>
          have heq : buildTails flag [comp] =
              .ok (.cat (compRegex comp) .eps,
                   if flag then .eps else grpOpt (.cat (compRegex comp) .eps)) := by
            simp [buildTails, hne, hds, hbc]
          refine ⟨_, _, heq, ?_⟩
          have := Regex.Accepts.cat hcr Regex.Accepts.eps
          simpa [renderTail] using this
      | cons r rs =>
          obtain ⟨f, d, hbt, hacc⟩ := ih hrest flag
          have heq : buildTails flag (comp :: r :: rs) =
              .ok (.cat (compRegex comp) (.cat (.char '/') f),
                   if flag then d
                   else grpOpt (.cat (compRegex comp) (grpOpt (.cat (.char '/') d)))) := by
            conv_lhs => rw [buildTails]
            rw [hbt]
            simp [hne, hds, hbc]
          refine ⟨_, _, heq, ?_⟩
          have hsl : Regex.Accepts (.cat (.char '/') f) ('/' :: renderTail (r :: rs)) := by
            have := Regex.Accepts.cat (Regex.Accepts.char '/') hacc
            simpa using this
          have := Regex.Accepts.cat hcr hsl
          simpa [renderTail] using this

/-- Characters allowed in the domain of the literal-pattern theorem:
no wildcard, none of the rejected metacharacters, and none of the
characters (`?`, `\`, `/`) on which the embedding of the regex parse is
not byte-faithful to the regex crate. -/
def safeLiteralComp (w : List Char) : Prop :=
  w ≠ [] ∧ ∀ c ∈ w, c ≠ '*' ∧ c ≠ '?' ∧ c ≠ '\\' ∧ c ≠ '/' ∧ badChar c = false

instance (w : List Char) : Decidable (safeLiteralComp w) := by
  unfold safeLiteralComp
  infer_instance

/-! ### Claim theorems for the glob compiler -/

/-- C1 (counterexample): the claim says the `file_matcher` of the literal
glob `/a/b` rejects every path other than `/a/b`; but the compiled regex is
unanchored, so the different path `/x/a/b` is also accepted. -/
theorem c1_counterexample :
    patFileMatch [['a'], ['b']] (renderPath [['x'], ['a'], ['b']]) = true ∧
    renderPath [['x'], ['a'], ['b']] ≠ renderPath [['a'], ['b']] := by
  constructor
  · decide
  · decide

/-- C1 (amended): for a glob of literal components (no wildcards, none of
the rejected metacharacters, and no `?`/`\`), compilation succeeds,
`base_directory` is the pattern's absolute form, and `file_matcher`
accepts the pattern's absolute path — but, matching being an unanchored
substring search, it does not reject every other path. -/
theorem c1_literal_pattern_amended (comps : List (List Char))
    (h : ∀ w ∈ comps, safeLiteralComp w) :
    patBase comps = some comps ∧ patFileMatch comps (renderPath comps) = true := by
  have h' : ∀ w ∈ comps, ∀ c ∈ w, c ≠ '*' ∧ badChar c = false := by
    intro w hw c hc
    have := (h w hw).2 c hc
    exact ⟨this.1, this.2.2.2.2⟩
  obtain ⟨f, d, hbt, hacc⟩ := buildTails_literal comps h' false
  have hnew : Pattern.new comps =
      .ok { file_regex := .cat (.char '/') f,
            directory_regex := .cat (.char '/') d,
            base_directory := comps.takeWhile (fun c => !c.contains '*') } := by
    simp [Pattern.new, hbt]
  constructor
  · simp only [patBase, hnew, Option.some.injEq]
    rw [List.takeWhile_eq_self_iff]
    intro w hw
    have hmem : '*' ∉ w := fun hmem => absurd rfl (((h w hw).2 '*' hmem).1)
    simpa using hmem
  · simp only [patFileMatch, hnew]
    apply Regex.is_match_iff.mpr
    refine ⟨[], renderPath comps, [], by simp, ?_⟩
    have := Regex.Accepts.cat (Regex.Accepts.char '/') hacc
    simpa [renderPath] using this

/-- C1 (witness): the amended statement instantiated at the glob `/a/b`. -/
theorem c1_witness :
    (∀ w ∈ [['a'], ['b']], safeLiteralComp w) ∧
    (patBase [['a'], ['b']] = some [['a'], ['b']] ∧
      patFileMatch [['a'], ['b']] (renderPath [['a'], ['b']]) = true) :=
  ⟨by decide, c1_literal_pattern_amended _ (by decide)⟩

/-- C2: for every compiled pattern and every path, a path accepted by the
file matcher is accepted by the directory-prefix matcher: the file regex
forces a `/` into any match, and after its leading `/` the directory regex
is nullable, so it matches at that same slash. -/
theorem c2_superset (comps : List (List Char)) (p : List Char)
    (h : patFileMatch comps p = true) : patDirMatch comps p = true := by
  unfold patFileMatch at h
  unfold patDirMatch
  cases hbt : buildTails false comps with
  | error e =>
      have : Pattern.new comps = .error e := by simp [Pattern.new, hbt]
      rw [this] at h
      simp at h
  | ok fd =>
      obtain ⟨f, d⟩ := fd
      have hnew : Pattern.new comps =
          .ok { file_regex := .cat (.char '/') f,
                directory_regex := .cat (.char '/') d,
                base_directory := comps.takeWhile (fun c => !c.contains '*') } := by
        simp [Pattern.new, hbt]
      rw [hnew] at h ⊢
      have hd := buildTails_dir_nullable comps false f d hbt
      exact match_of_slash_mem hd (slash_mem_of_match h)

/-- C2 (witness): the superset invariant at the glob `/a` and path `/a`. -/
theorem c2_witness :
    patFileMatch [['a']] (renderPath [['a']]) = true ∧
    patDirMatch [['a']] (renderPath [['a']]) = true :=
  ⟨by decide, c2_superset _ _ (by decide)⟩

/-- C3: the code's translation of `**` (the text `[^/]+(/[^/])*`, with no
path separator appended after it) does not implement "one or more whole
components".  For the glob `/a/**/b.txt` the compiled file matcher rejects
`/a/b.txt` (as the claim demands) but also rejects `/a/x/b.txt` and
`/a/x/y/b.txt` (which the claim requires it to accept); instead it accepts
the path `/a/xb.txt`, gluing the tail directly onto the `**` text. -/
theorem c3_doublestar_eval :
    patFileMatch [['a'], ['*', '*'], ['b', '.', 't', 'x', 't']]
        (renderPath [['a'], ['b', '.', 't', 'x', 't']]) = false ∧
    patFileMatch [['a'], ['*', '*'], ['b', '.', 't', 'x', 't']]
        (renderPath [['a'], ['x'], ['b', '.', 't', 'x', 't']]) = false ∧
    patFileMatch [['a'], ['*', '*'], ['b', '.', 't', 'x', 't']]
        (renderPath [['a'], ['x'], ['y'], ['b', '.', 't', 'x', 't']]) = false ∧
    patFileMatch [['a'], ['*', '*'], ['b', '.', 't', 'x', 't']]
        (renderPath [['a'], ['x', 'b', '.', 't', 'x', 't']]) = true := by
  refine ⟨by decide, by decide, by decide, by decide⟩

/-- The component loop rejects any component list containing a component
that has `**` with other text or a disallowed metacharacter. -/
theorem buildTails_err : ∀ (comps : List (List Char)) (flag : Bool),
    (∃ c ∈ comps, c ≠ ['*', '*'] ∧ (hasDoubleStar c = true ∨ c.any badChar = true)) →
    buildTails flag comps = .error "invalid pattern" := by
  intro comps
  induction comps with
  | nil =>
      intro flag h
      simp at h
  | cons comp rest ih =>
      intro flag h
      rcases h with ⟨c, hc, hcn, hbad⟩
      rcases List.mem_cons.mp hc with rfl | hcr
      · have hne : ¬ (c = ['*', '*']) := hcn
        rcases hbad with hds | hbc
        · simp [buildTails, if_neg hne, hds]
        · by_cases hds : hasDoubleStar c = true
          · simp [buildTails, if_neg hne, hds]
          · simp only [Bool.not_eq_true] at hds
            simp [buildTails, if_neg hne, hds, hbc]
      · have hrec : ∀ flag', buildTails flag' rest = .error "invalid pattern" :=
          fun flag' => ih flag' ⟨c, hcr, hcn, hbad⟩
        by_cases hdd : comp = ['*', '*']
        · simp [buildTails, hdd, hrec true]
        · by_cases hds : hasDoubleStar comp = true
          · simp [buildTails, if_neg hdd, hds]
          · simp only [Bool.not_eq_true] at hds
            by_cases hbc : comp.any badChar = true
            · simp [buildTails, if_neg hdd, hds, hbc]
            · simp only [Bool.not_eq_true] at hbc
              simp [buildTails, if_neg hdd, hds, hbc, hrec flag]

/-- C8: compiling any pattern with a component containing `**` combined
with other text, or containing one of `[ ] ( ) + $ ^ { } |`, fails with
the error `invalid pattern`. -/
theorem c8_invalid_patterns (comps : List (List Char))
    (h : ∃ c ∈ comps, c ≠ ['*', '*'] ∧ (hasDoubleStar c = true ∨ c.any badChar = true)) :
    Pattern.new comps = .error "invalid pattern" := by
  simp [Pattern.new, buildTails_err comps false h]

/-- C8 (witness): compiling `/a/[b].txt` fails. -/
theorem c8_witness :
    (∃ c ∈ [['a'], ['[', 'b', ']', '.', 't', 'x', 't']], c ≠ ['*', '*'] ∧
      (hasDoubleStar c = true ∨ c.any badChar = true)) ∧
    Pattern.new [['a'], ['[', 'b', ']', '.', 't', 'x', 't']] = .error "invalid pattern" :=
  ⟨by decide, c8_invalid_patterns _ (by decide)⟩

/-- C9: a `*` within a component is translated to `[^/]*` and cannot cross
a path separator: the glob `/a/*.txt` rejects `/a/b/c.txt` while accepting
`/a/b.txt`. -/
theorem c9_star_no_separator :
    patFileMatch [['a'], ['*', '.', 't', 'x', 't']]
        (renderPath [['a'], ['b'], ['c', '.', 't', 'x', 't']]) = false ∧
    patFileMatch [['a'], ['*', '.', 't', 'x', 't']]
        (renderPath [['a'], ['b', '.', 't', 'x', 't']]) = true := by
  refine ⟨by decide, by decide⟩

/-! ## Event model (`notify::EventKind` as consumed by `src/main.rs`) -/

inductive AccessKind | any | read | openA | closeA | other
  deriving Repr, DecidableEq

inductive DataChange | any | size | content | other
  deriving Repr, DecidableEq

inductive MetadataKind | any | accessTime | writeTime | permissions | ownership | extended | other
  deriving Repr, DecidableEq

inductive RenameMode | any | toName | fromName | both | other
  deriving Repr, DecidableEq

inductive ModifyKind
  | any
  | data (k : DataChange)
  | metadata (k : MetadataKind)
  | name (m : RenameMode)
  | other
  deriving Repr, DecidableEq

inductive CreateKind | any | file | folder | other
  deriving Repr, DecidableEq

inductive RemoveKind | any | file | folder | other
  deriving Repr, DecidableEq

inductive EventKind
  | any
  | access (k : AccessKind)
  | create (k : CreateKind)
  | modify (k : ModifyKind)
  | remove (k : RemoveKind)
  | other
  deriving Repr, DecidableEq

/-- Model of `notify::Event`: a kind and the affected paths. -/
structure Event where
  kind : EventKind
  paths : List String
  deriving Repr, DecidableEq

/-- Model of `should_event_trigger` in `src/main.rs`: drop events whose kind is
`Modify(Metadata(_))` or `Access(_)`; keep everything else. -/
def should_event_trigger (event : Event) : Bool :=
  !(match event.kind with
    | .modify (.metadata _) => true
    | .access _ => true
    | _ => false)

/-! ## Debounce timers (`src/main.rs`)

`Instant`s are modelled as `Nat` milliseconds; `start.elapsed()` at
current instant `now` is `now - start`, and `Duration::saturating_sub` is
truncated `Nat` subtraction. -/

/-- Model of `DebounceTimer`: an optional start instant plus the debounce duration. -/
structure DebounceTimer where
  start : Option Nat
  duration : Nat
  deriving Repr, DecidableEq

namespace DebounceTimer

/-- Remaining wait time: `duration.saturating_sub(start.elapsed())`. -/
def calculate_timeout (t : DebounceTimer) (now : Nat) : Option Nat :=
  t.start.map (fun s => t.duration - (now - s))

/-- Compares `Instant::now() > start + duration` — note the strict inequality. -/
def expired (t : DebounceTimer) (now : Nat) : Bool :=
  match t.start with
  | some s => decide (s + t.duration < now)
  | none => false

/-- Stops the timer. -/
def stop (t : DebounceTimer) : DebounceTimer := { t with start := none }

/-- Starts the timer if it wasn't previously started. -/
def start_if_stopped (t : DebounceTimer) (now : Nat) : DebounceTimer :=
  match t.start with
  | none => { t with start := some now }
  | some _ => t

end DebounceTimer

/-- One entry of the `seedos` vector: the external `glob::Pattern`
matchers are abstracted as boolean predicates on paths
(`Pattern::matches_path`), and the `std::process::Command` is abstracted
as a numeric identifier recorded when the command is run. -/
structure Seedo where
  patterns : List (String → Bool)
  command : Nat

/-- The per-event matching step of the dispatch loop (`'outer` loop in
`try_main`): a rule's timer is started (if stopped) exactly when some
event path matches some of the rule's patterns. -/
def processEvent (now : Nat) (rules : List (DebounceTimer × Seedo)) (e : Event) :
    List (DebounceTimer × Seedo) :=
  rules.map fun r =>
    if e.paths.any (fun p => r.2.patterns.any (fun pat => pat p)) then
      (r.1.start_if_stopped now, r.2)
    else r

/-- The channel-side filter of `try_main`: the watcher callback forwards
an event to the dispatcher only when `should_event_trigger` accepts it;
otherwise no rule's timer can be touched by it. -/
def deliverEvent (now : Nat) (rules : List (DebounceTimer × Seedo)) (e : Event) :
    List (DebounceTimer × Seedo) :=
  if should_event_trigger e then processEvent now rules e else rules

/-- The timeout branch of the dispatch loop: walk the rules in
declaration order; each rule whose timer is expired is stopped and its
command run (recorded as `(now, command)`). -/
def processExpiry (now : Nat) : List (DebounceTimer × Seedo) →
    List (DebounceTimer × Seedo) × List (Nat × Nat)
  | [] => ([], [])
  | (t, s) :: rest =>
      let (rest', runs) := processExpiry now rest
      if t.expired now then ((t.stop, s) :: rest', (now, s.command) :: runs)
      else ((t, s) :: rest', runs)

/-- Model of `DebounceTimerSet::calculate_timeout`: minimum of the running timers'
remaining times, `none` when no timer is running. -/
def calcTimeoutSet (now : Nat) (rules : List (DebounceTimer × Seedo)) : Option Nat :=
  rules.foldl
    (fun acc r =>
      match r.1.calculate_timeout now with
      | some d =>
          match acc with
          | some m => some (min m d)
          | none => some d
      | none => acc)
    none

/-- State of the dispatch loop: the current instant, the rules (timer
and seedo zipped as in `try_main`), the queued events (arrival instant
and event, in channel order), and the log of command executions. -/
structure LoopState where
  now : Nat
  rules : List (DebounceTimer × Seedo)
  queue : List (Nat × Event)
  runs : List (Nat × Nat)

/-- One iteration of the dispatch loop.  `recv_timeout` is modelled as:
the next queued event is delivered if it arrives no later than the
deadline (the loop wakes at the arrival instant); otherwise the loop
wakes `lag ≥ 0` after the deadline (the scheduler never wakes a timed-out
`recv_timeout` early) and the expiry scan runs.  An event wake `continue`s
without scanning for expired timers, exactly as in `try_main`.  `none`
models blocking forever on an empty, disconnected-free channel. -/
def loopIter (lag : Nat) (s : LoopState) : Option LoopState :=
  match calcTimeoutSet s.now s.rules, s.queue with
  | none, [] => none
  | none, (a, e) :: q =>
      let w := max s.now a
      some { s with now := w, rules := processEvent w s.rules e, queue := q }
  | some d, (a, e) :: q =>
      if a ≤ s.now + d then
        let w := max s.now a
        some { s with now := w, rules := processEvent w s.rules e, queue := q }
      else
        let w := s.now + d + lag
        let pr := processExpiry w s.rules
        some { s with now := w, rules := pr.1, runs := s.runs ++ pr.2 }
  | some d, [] =>
      let w := s.now + d + lag
      let pr := processExpiry w s.rules
      some { s with now := w, rules := pr.1, runs := s.runs ++ pr.2 }

/-- Run the dispatch loop for at most `fuel` iterations. -/
def runLoop (lag : Nat) : Nat → LoopState → LoopState
  | 0, s => s
  | fuel + 1, s =>
      match loopIter lag s with
      | none => s
      | some s' => runLoop lag fuel s'

/-- Initial state of the C4 scenario: one rule with a 50 ms debounce and a
pattern matching the path `f`; qualifying events for `f` arrive at t = 0
and t = 20 ms. -/
def c4Init : LoopState :=
  { now := 0,
    rules := [({ start := none, duration := 50 }, { patterns := [fun p => p == "f"], command := 0 })],
    queue :=
      [(0, { kind := .modify (.data .content), paths := ["f"] }),
       (20, { kind := .modify (.data .content), paths := ["f"] })],
    runs := [] }

/-! ### Claim theorems for the debounce/dispatch engine -/

/-- C4: `start_if_stopped` never changes a running timer's start instant,
and in the two-event scenario (events at 0 ms and 20 ms, 50 ms debounce)
the loop performs exactly one command execution, at 50 ms plus the
scheduler wake-up lag — about 50 ms, not 70 ms. -/
theorem c4_debounce_anchored :
    (∀ (t : DebounceTimer) (now s : Nat),
      t.start = some s → (t.start_if_stopped now).start = some s) ∧
    (∀ lag : Nat, lag < 20 → 1 ≤ lag →
      (runLoop lag 5 c4Init).runs = [(50 + lag, 0)] ∧ 50 + lag < 70) := by
  constructor
  · intro t now s h
    simp [DebounceTimer.start_if_stopped, h]
  · decide

/-- C4 (witness): the non-reset law at a concrete running timer, and the
scenario at wake-up lag 1 ms. -/
theorem c4_witness :
    ((DebounceTimer.mk (some 3) 50).start_if_stopped 20).start = some 3 ∧
    ((runLoop 1 5 c4Init).runs = [(51, 0)] ∧ 51 < 70) :=
  ⟨c4_debounce_anchored.1 _ 20 3 rfl, c4_debounce_anchored.2 1 (by decide) (by decide)⟩

/-- C5: `should_event_trigger` rejects exactly the pure-access and
metadata-only-modify kinds, and a rejected event is never forwarded to
the dispatcher, so it leaves every rule (in particular every timer)
unchanged regardless of its paths. -/
theorem c5_event_filter :
    (∀ e : Event,
      should_event_trigger e = false ↔
        ((∃ a, e.kind = .access a) ∨ (∃ m, e.kind = .modify (.metadata m)))) ∧
    (∀ (now : Nat) (rules : List (DebounceTimer × Seedo)) (e : Event),
      should_event_trigger e = false → deliverEvent now rules e = rules) := by
  constructor
  · intro e
    obtain ⟨k, paths⟩ := e
    cases k with
    | modify m =>
        cases m <;> simp [should_event_trigger]
    | _ => simp [should_event_trigger]
  · intro now rules e h
    simp [deliverEvent, h]

/-- C5 (witness): an access event whose path matches the rule's pattern
still leaves the rule untouched. -/
theorem c5_witness :
    should_event_trigger { kind := .access .read, paths := ["f"] } = false ∧
    deliverEvent 7
        [({ start := none, duration := 50 }, { patterns := [fun _ => true], command := 0 })]
        { kind := .access .read, paths := ["f"] } =
      [({ start := none, duration := 50 }, { patterns := [fun _ => true], command := 0 })] :=
  ⟨by decide, c5_event_filter.2 7 _ _ (by decide)⟩

/-- C7 (counterexample): a timer whose deadline is exactly reached
(`now = start + duration`) is *not* expired — `expired` uses a strict
comparison — so on that wake its command is not invoked and its timer is
not stopped, contradicting the claim's "reached or passed". -/
theorem c7_counterexample :
    0 + 50 ≤ 50 ∧
    DebounceTimer.expired { start := some 0, duration := 50 } 50 = false ∧
    (processExpiry 50
        [({ start := some 0, duration := 50 }, { patterns := [], command := 0 })]).2 = [] := by
  refine ⟨by decide, by decide, by decide⟩

/-- C7 (amended): on a wake caused by an elapsed deadline, every rule
whose timer has strictly passed its deadline (`start + duration < now`)
is stopped and its command is run, in declaration order; every other rule
(timer stopped, or deadline not strictly passed) is left unchanged and
runs no command on that wake. -/
theorem c7_expiry_amended (now : Nat) (rules : List (DebounceTimer × Seedo)) :
    (processExpiry now rules).1 =
      rules.map (fun r => if r.1.expired now then (r.1.stop, r.2) else r) ∧
    (processExpiry now rules).2 =
      (rules.filter (fun r => r.1.expired now)).map (fun r => (now, r.2.command)) := by
  induction rules with
  | nil => exact ⟨rfl, rfl⟩
  | cons r rest ih =>
      obtain ⟨t, s⟩ := r
      by_cases h : t.expired now = true
      · simp [processExpiry, h, List.filter_cons, ih.1, ih.2]
      · simp only [Bool.not_eq_true] at h
        simp [processExpiry, h, List.filter_cons, ih.1, ih.2]

/-! ## Construction phase of `try_main` / `main` (`src/main.rs`)

Filesystem and process effects are abstracted as an environment record:
`absolutize` is `Path::absolutize`, `globExpand` is the `glob::glob`
enumeration of existing paths for one absolute glob string (with the
`filter_map(ok)` already applied, so a failed enumeration contributes
nothing, exactly like the code), `walkWatch` is the ignore-walk plus
`watcher.watch` calls over the found paths, and `patternNew` is
`glob::Pattern::new` on one absolute glob. -/

structure FsEnv where
  absolutize : String → String
  globExpand : String → List String
  walkWatch : List String → Except String Unit
  patternNew : String → Except String Unit

/-- One `SeedoConfig` entry (the command is modelled in its
`CommandToRun::Vec` form). -/
structure SeedoConfig where
  command_to_run : List String
  globs : List String
  skip_ignore_files : Bool
  debounce_ms : Nat

/-- Model of `command_from_iter`: fails with `no command given` on an empty list. -/
def command_from_iter (items : List String) : Except String Unit :=
  match items with
  | [] => .error "no command given"
  | _ :: _ => .ok ()

/-- The `for glob in abs_globs { patterns.push(Pattern::new(&glob)?) }`
loop, with `glob::Pattern::new` supplied by the environment. -/
def checkPatterns (env : FsEnv) : List String → Except String Unit
  | [] => .ok ()
  | g :: rest =>
      match env.patternNew g with
      | .error e => .error e
      | .ok _ => checkPatterns env rest

/-- The per-config construction steps of `try_main`: build the command,
absolutize the globs, enumerate them on the filesystem, bail with
`no paths given` when the enumeration is empty, then walk/watch the
found paths and compile the match patterns. -/
def buildOne (env : FsEnv) (config : SeedoConfig) : Except String Unit :=
  match command_from_iter config.command_to_run with
  | .error e => .error e
  | .ok _ =>
      let abs_globs := config.globs.map env.absolutize
      match abs_globs.bind env.globExpand with
      | [] => .error "no paths given"
      | _ :: _ =>
          match env.walkWatch (abs_globs.bind env.globExpand) with
          | .error e => .error e
          | .ok _ => checkPatterns env abs_globs

/-- The construction loop of `try_main` over all configs; any error stops
the construction before the dispatch loop is entered. -/
def tryMainBuild (env : FsEnv) : List SeedoConfig → Except String Unit
  | [] => .ok ()
  | c :: rest =>
      match buildOne env c with
      | .error e => .error e
      | .ok _ => tryMainBuild env rest

/-- Model of `main`: a construction error is printed and the process exits with
status 1; otherwise the dispatch loop runs (exit status 0 after it ends). -/
def mainExitCode (env : FsEnv) (configs : List SeedoConfig) : Nat :=
  match tryMainBuild env configs with
  | .error _ => 1
  | .ok _ => 0

/-- C10: if the first config's non-empty glob list expands to zero
existing paths, construction fails with `no paths given` and the process
exit status is 1 (the dispatch loop, which lives in the `.ok` branch of
`tryMainBuild`, is never reached). -/
theorem c10_no_paths (env : FsEnv) (c : SeedoConfig) (rest : List SeedoConfig)
    (hcmd : c.command_to_run ≠ [])
    (hglobs : c.globs ≠ [])
    (hempty : (c.globs.map env.absolutize).bind env.globExpand = []) :
    tryMainBuild env (c :: rest) = .error "no paths given" ∧
    mainExitCode env (c :: rest) = 1 := by
  have hb : buildOne env c = .error "no paths given" := by
    unfold buildOne
    cases hc : c.command_to_run with
    | nil => exact absurd hc hcmd
    | cons x xs => simp [command_from_iter, hc, hempty]
  exact ⟨by simp [tryMainBuild, hb], by simp [mainExitCode, tryMainBuild, hb]⟩

/-- C10 (witness): a single rule whose only glob matches no existing path. -/
theorem c10_witness :
    (SeedoConfig.mk ["make"] ["*.c"] false 50).command_to_run ≠ [] ∧
    (SeedoConfig.mk ["make"] ["*.c"] false 50).globs ≠ [] ∧
    ((SeedoConfig.mk ["make"] ["*.c"] false 50).globs.map
        (FsEnv.mk (fun s => s) (fun _ => []) (fun _ => .ok ()) (fun _ => .ok ())).absolutize).bind
      (FsEnv.mk (fun s => s) (fun _ => []) (fun _ => .ok ()) (fun _ => .ok ())).globExpand = [] ∧
    tryMainBuild (FsEnv.mk (fun s => s) (fun _ => []) (fun _ => .ok ()) (fun _ => .ok ()))
        [SeedoConfig.mk ["make"] ["*.c"] false 50] = .error "no paths given" ∧
    mainExitCode (FsEnv.mk (fun s => s) (fun _ => []) (fun _ => .ok ()) (fun _ => .ok ()))
        [SeedoConfig.mk ["make"] ["*.c"] false 50] = 1 := by
  refine ⟨by decide, by decide, rfl, ?_, ?_⟩
  · exact (c10_no_paths (FsEnv.mk (fun s => s) (fun _ => []) (fun _ => .ok ()) (fun _ => .ok ()))
      (SeedoConfig.mk ["make"] ["*.c"] false 50) [] (by decide) (by decide) rfl).1
  · exact (c10_no_paths (FsEnv.mk (fun s => s) (fun _ => []) (fun _ => .ok ()) (fun _ => .ok ()))
      (SeedoConfig.mk ["make"] ["*.c"] false 50) [] (by decide) (by decide) rfl).2


/-! ## Base-directory de-duplication (`GlobWatcher::from_patterns`)

The collected `base_directory` values are modelled as lists of
components, each component a `List Char` (the byte content of one
`OsStr` component); the `BTreeSet<PathBuf>` iteration order is the strict
lexicographic component order `lexLt`, stated as a `Pairwise` sortedness
hypothesis; `Path::starts_with` is component-wise prefix
(`List.isPrefixOf`). -/

/-- Strict lexicographic order on component lists (`Ord for PathBuf`). -/
def lexLt : List (List Char) → List (List Char) → Bool
  | [], [] => false
  | [], _ :: _ => true
  | _ :: _, [] => false
  | a :: as, b :: bs => if a < b then true else if b < a then false else lexLt as bs

/-- The `filter` with the `last_dir_opt` state in
`GlobWatcher::from_patterns`: keep a directory unless it extends the most
recently kept one (in which case the state is left unchanged). -/
def filterBaseDirs : Option (List (List Char)) → List (List (List Char)) → List (List (List Char))
  | _, [] => []
  | none, p :: rest => p :: filterBaseDirs (some p) rest
  | some last, p :: rest =>
      if last.isPrefixOf p then filterBaseDirs (some last) rest
      else p :: filterBaseDirs (some p) rest

/-- The de-duplicated watch roots computed from the sorted set of base
directories. -/
def dedupBaseDirs (l : List (List (List Char))) : List (List (List Char)) :=
  filterBaseDirs none l

theorem lexLt_irrefl : ∀ a : List (List Char), lexLt a a = false
  | [] => rfl
  | _ :: as => by simp [lexLt, lexLt_irrefl as]

theorem lexLt_asymm : ∀ {a b : List (List Char)}, lexLt a b = true → lexLt b a = false
  | [], [], h => by simp [lexLt] at h
  | [], _ :: _, _ => rfl
  | _ :: _, [], h => by simp [lexLt] at h
  | a0 :: as, b0 :: bs, h => by
      rcases lt_trichotomy a0 b0 with hlt | heq | hgt
      · have hnlt : ¬ b0 < a0 := lt_asymm hlt
        simp [lexLt, hnlt, hlt]
      · subst heq
        simp only [lexLt, lt_irrefl, if_false] at h ⊢
        exact lexLt_asymm h
      · have hnlt : ¬ a0 < b0 := lt_asymm hgt
        simp [lexLt, hnlt, hgt] at h

theorem lexLt_of_isPrefixOf : ∀ {a b : List (List Char)},
    a.isPrefixOf b = true → a ≠ b → lexLt a b = true
  | [], [], _, hne => absurd rfl hne
  | [], _ :: _, _, _ => rfl
  | _ :: _, [], hpre, _ => by simp [List.isPrefixOf] at hpre
  | a0 :: as, b0 :: bs, hpre, hne => by
      simp only [List.isPrefixOf, Bool.and_eq_true, beq_iff_eq] at hpre
      obtain ⟨rfl, hpre'⟩ := hpre
      have hne' : as ≠ bs := fun h => hne (by rw [h])
      simp only [lexLt, lt_irrefl, if_false]
      exact lexLt_of_isPrefixOf hpre' hne'

/-- If `a < b` lexicographically then `b` is not a component prefix of `a`. -/
theorem not_pre_of_lexLt {a b : List (List Char)} (h : lexLt a b = true) :
    b.isPrefixOf a = false := by
  by_contra hc
  simp only [Bool.not_eq_false] at hc
  by_cases heq : b = a
  · subst heq
    rw [lexLt_irrefl] at h
    exact Bool.noConfusion h
  · have hba : lexLt b a = true := lexLt_of_isPrefixOf hc heq
    have hfalse := lexLt_asymm hba
    rw [h] at hfalse
    exact Bool.noConfusion hfalse

/-- Sandwich property of the sorted order: if `a` is a component prefix of
`b` and `a < x < b`, then `a` is also a component prefix of `x`. -/
theorem isPrefixOf_of_between : ∀ {a b x : List (List Char)},
    a.isPrefixOf b = true → lexLt a x = true → lexLt x b = true →
    a.isPrefixOf x = true
  | [], _, x, _, _, _ => by cases x <;> rfl
  | a0 :: as, b, x, hpre, hax, hxb => by
      cases b with
      | nil => simp [List.isPrefixOf] at hpre
      | cons b0 bs =>
          cases x with
          | nil => simp [lexLt] at hax
          | cons x0 xs =>
              simp only [List.isPrefixOf, Bool.and_eq_true, beq_iff_eq] at hpre
              obtain ⟨rfl, hpre'⟩ := hpre
              rcases lt_trichotomy a0 x0 with hlt | heq | hgt
              · have hnlt : ¬ x0 < a0 := lt_asymm hlt
                simp [lexLt, hnlt, hlt] at hxb
              · subst heq
                simp only [lexLt, lt_irrefl, if_false] at hax hxb
                have htail := isPrefixOf_of_between hpre' hax hxb
                simp [List.isPrefixOf, htail]
              · have hnlt : ¬ a0 < x0 := lt_asymm hgt
                simp [lexLt, hnlt, hgt] at hax

/-- Invariant of the `last_dir_opt` filter on a strictly sorted input all
of whose elements are above `last`: the kept elements come from the
input, none of them extends `last`, and no kept element is a component
prefix of another. -/
theorem filterBaseDirs_spec : ∀ (l : List (List (List Char))) (last : List (List Char)),
    List.Pairwise (fun a b => lexLt a b = true) l →
    (∀ p ∈ l, lexLt last p = true) →
    (∀ x ∈ filterBaseDirs (some last) l, x ∈ l) ∧
    (∀ x ∈ filterBaseDirs (some last) l, last.isPrefixOf x = false) ∧
    List.Pairwise (fun a b => a.isPrefixOf b = false ∧ b.isPrefixOf a = false)
      (filterBaseDirs (some last) l)
  | [], last, _, _ => ⟨fun x hx => by simp [filterBaseDirs] at hx,
      fun x hx => by simp [filterBaseDirs] at hx, by simp [filterBaseDirs]⟩
  | p :: rest, last, hsort, hlast => by
      have hhead : ∀ q ∈ rest, lexLt p q = true :=
        fun q hq => (List.pairwise_cons.mp hsort).1 q hq
      have htail : List.Pairwise (fun a b => lexLt a b = true) rest :=
        (List.pairwise_cons.mp hsort).2
      by_cases hdrop : last.isPrefixOf p = true
      · have heq : filterBaseDirs (some last) (p :: rest) = filterBaseDirs (some last) rest := by
          simp [filterBaseDirs, hdrop]
        have hlast' : ∀ q ∈ rest, lexLt last q = true :=
          fun q hq => hlast q (List.mem_cons_of_mem p hq)
        obtain ⟨hmem, hnp, hpw⟩ := filterBaseDirs_spec rest last htail hlast'
        rw [heq]
        exact ⟨fun x hx => List.mem_cons_of_mem p (hmem x hx), hnp, hpw⟩
      · simp only [Bool.not_eq_true] at hdrop
        have heq : filterBaseDirs (some last) (p :: rest) =
            p :: filterBaseDirs (some p) rest := by
          simp [filterBaseDirs, hdrop]
        obtain ⟨hmem, hnp, hpw⟩ := filterBaseDirs_spec rest p htail hhead
        rw [heq]
        refine ⟨?_, ?_, ?_⟩
        · intro x hx
          rcases List.mem_cons.mp hx with rfl | hx'
          · exact List.mem_cons_self x rest
          · exact List.mem_cons_of_mem p (hmem x hx')
        · intro x hx
          rcases List.mem_cons.mp hx with rfl | hx'
          · exact hdrop
          · by_contra hc
            simp only [Bool.not_eq_false] at hc
            have hpfx : last.isPrefixOf p = true :=
              isPrefixOf_of_between hc (hlast p (List.mem_cons_self p rest))
                (hhead x (hmem x hx'))
            rw [hdrop] at hpfx
            exact Bool.noConfusion hpfx
        · rw [List.pairwise_cons]
          refine ⟨?_, hpw⟩
          intro y hy
          have hyrest : y ∈ rest := hmem y hy
          exact ⟨hnp y hy, not_pre_of_lexLt (hhead y hyrest)⟩

/-- C6: the base directories `{/a, /a/b, /c}` de-duplicate to exactly
`{/a, /c}`, and in general, on any strictly sorted input, no two retained
base directories are in an ancestor/descendant (component-prefix)
relationship — a directory is never retained when a retained ancestor of
it exists. -/
theorem c6_dedup :
    dedupBaseDirs [[['a']], [['a'], ['b']], [['c']]] = [[['a']], [['c']]] ∧
    ∀ l : List (List (List Char)), List.Pairwise (fun a b => lexLt a b = true) l →
      List.Pairwise (fun a b => a.isPrefixOf b = false ∧ b.isPrefixOf a = false)
        (dedupBaseDirs l) := by
  constructor
  · decide
  · intro l hsort
    cases l with
    | nil => simp [dedupBaseDirs, filterBaseDirs]
    | cons p rest =>
        have hhead : ∀ q ∈ rest, lexLt p q = true :=
          fun q hq => (List.pairwise_cons.mp hsort).1 q hq
        have htail : List.Pairwise (fun a b => lexLt a b = true) rest :=
          (List.pairwise_cons.mp hsort).2
        obtain ⟨hmem, hnp, hpw⟩ := filterBaseDirs_spec rest p htail hhead
        have heq : dedupBaseDirs (p :: rest) = p :: filterBaseDirs (some p) rest := by
          simp [dedupBaseDirs, filterBaseDirs]
        rw [heq, List.pairwise_cons]
        refine ⟨?_, hpw⟩
        intro y hy
        exact ⟨hnp y hy, not_pre_of_lexLt (hhead y (hmem y hy))⟩

/-- C6 (witness): the general invariant instantiated at the sorted input
`{/a, /a/b, /c}`. -/
theorem c6_witness :
    List.Pairwise (fun a b => lexLt a b = true) [[['a']], [['a'], ['b']], [['c']]] ∧
    List.Pairwise (fun a b => a.isPrefixOf b = false ∧ b.isPrefixOf a = false)
      (dedupBaseDirs [[['a']], [['a'], ['b']], [['c']]]) :=
  ⟨by decide, c6_dedup.2 _ (by decide)⟩

end Seedo
